import Mathlib

set_option maxHeartbeats 1000000

/-!
Shallow embedding of the admission system's core (`admission_core.py`):
the record store (SQLite tables `applicants`, `loads`, `applications`),
the list reconciler `upsert_competition_list`, the read query
`query_program_list`, and the allocation engine `compute_admission` /
`compute_admission_from_db`.

Tables are modelled as lists of rows in insertion order; SQL upserts
(`INSERT ... ON CONFLICT ... DO UPDATE`) update the first row with the
matching primary key in place (primary keys make duplicates unreachable in
the real store), deletes are filters, and `with engine.begin()` is modelled
by all-or-nothing visibility: a store failure inside the transaction rolls
the observable state back to the pre-state.
-/

/-- A row of the `applicants` table (primary key `id`). -/
structure ApplicantRow where
  id : Int
  phys : Int
  rus : Int
  math : Int
  indiv : Int
  total : Int
deriving DecidableEq, Repr

/-- A row of the append-only `loads` table. -/
structure LoadRow where
  day : String
  program : String
  loaded_at : String
deriving DecidableEq, Repr

/-- A row of the `applications` table (primary key `(day, program, applicant_id)`). -/
structure AppRow where
  day : String
  program : String
  applicant_id : Int
  consent : Int
  priority : Int
  loaded_at : String
deriving DecidableEq, Repr

/-- The store state: the three tables created by `SCHEMA_SQL`. -/
structure DB where
  applicants : List ApplicantRow
  loads : List LoadRow
  applications : List AppRow
deriving DecidableEq, Repr

def emptyDB : DB := ⟨[], [], []⟩

/-- Primary-key lookup in `applications` (first row with the key). -/
def lookupApp : List AppRow → String → String → Int → Option AppRow
  | [], _, _, _ => none
  | r :: l, d, p, i =>
    if r.day = d ∧ r.program = p ∧ r.applicant_id = i then some r else lookupApp l d p i

/-- Primary-key lookup in `applicants` (first row with the key). -/
def lookupApplicant : List ApplicantRow → Int → Option ApplicantRow
  | [], _ => none
  | r :: l, i => if r.id = i then some r else lookupApplicant l i

/-- `SELECT applicant_id FROM applications WHERE day=:d AND program=:p`. -/
def listApplicationIds (s : DB) (d p : String) : List Int :=
  (s.applications.filter (fun r => decide (r.day = d ∧ r.program = p))).map (·.applicant_id)

/-- `INSERT INTO applicants ... ON CONFLICT(id) DO UPDATE SET` all score fields. -/
def upsertApplicantRow (a : ApplicantRow) : List ApplicantRow → List ApplicantRow
  | [] => [a]
  | x :: l =>
    if x.id = a.id then
      { x with phys := a.phys, rus := a.rus, math := a.math,
               indiv := a.indiv, total := a.total } :: l
    else x :: upsertApplicantRow a l

/-- `INSERT INTO applications ... ON CONFLICT(day, program, applicant_id)
    DO UPDATE SET consent, priority, loaded_at`. -/
def upsertAppRow (r : AppRow) : List AppRow → List AppRow
  | [] => [r]
  | x :: l =>
    if x.day = r.day ∧ x.program = r.program ∧ x.applicant_id = r.applicant_id then
      { x with consent := r.consent, priority := r.priority, loaded_at := r.loaded_at } :: l
    else x :: upsertAppRow r l

/-- `DELETE FROM applications WHERE day=:d AND program=:p AND applicant_id IN (old_ids − new_ids)`:
    a row of the `(d, p)` partition survives iff its id occurs in the new snapshot. -/
def deleteAbsentApps (d p : String) (newIds : List Int) (l : List AppRow) : List AppRow :=
  l.filter (fun r => decide (¬(r.day = d ∧ r.program = p ∧ r.applicant_id ∉ newIds)))

/-- A normalized upload row, as produced by `_normalize_df`
    (all eight required columns coerced to int). -/
structure NormRow where
  id : Int
  consent : Int
  priority : Int
  phys : Int
  rus : Int
  math : Int
  indiv : Int
  total : Int
deriving DecidableEq, Repr

def applicantRowOf (r : NormRow) : ApplicantRow :=
  ⟨r.id, r.phys, r.rus, r.math, r.indiv, r.total⟩

def appRowOf (day program now : String) (r : NormRow) : AppRow :=
  ⟨day, program, r.id, r.consent, r.priority, now⟩

/-- The `for _, r in df.iterrows()` applicant-score upsert loop. -/
def applyApplicantBatch (df : List NormRow) (l : List ApplicantRow) : List ApplicantRow :=
  df.foldl (fun acc r => upsertApplicantRow (applicantRowOf r) acc) l

/-- The `for _, r in df.iterrows()` application upsert loop. -/
def applyAppBatch (day program now : String) (df : List NormRow) (l : List AppRow) : List AppRow :=
  df.foldl (fun acc r => upsertAppRow (appRowOf day program now r) acc) l

/-- A raw uploaded dataframe cell: `some v` for a value coercible to int,
    `none` for a non-coercible value. A raw row maps column names to cells. -/
structure RawRow where
  cells : List (String × Option Int)
deriving DecidableEq, Repr

/-- A raw uploaded dataframe: its column list and its rows. -/
structure RawDF where
  cols : List String
  rows : List RawRow
deriving DecidableEq, Repr

def requiredCols : List String :=
  ["id", "consent", "priority", "phys", "rus", "math", "indiv", "total"]

def getCell (r : RawRow) (c : String) : Option Int :=
  match r.cells.find? (fun kv => decide (kv.1 = c)) with
  | some kv => kv.2
  | none => none

def normRow (r : RawRow) : Option NormRow := do
  let i ← getCell r "id"
  let c ← getCell r "consent"
  let pr ← getCell r "priority"
  let ph ← getCell r "phys"
  let ru ← getCell r "rus"
  let ma ← getCell r "math"
  let iv ← getCell r "indiv"
  let t ← getCell r "total"
  pure ⟨i, c, pr, ph, ru, ma, iv, t⟩

inductive ValError where
  | missingColumns (missing : List String)
  | nonCoercible
deriving DecidableEq, Repr

/-- `_normalize_df`: reject when a required column is missing, then coerce every
    required column to int (a non-coercible value is a validation failure). -/
def normalize_df (raw : RawDF) : Except ValError (List NormRow) :=
  let missing := requiredCols.filter (fun c => decide (c ∉ raw.cols))
  if missing.isEmpty then
    match raw.rows.mapM normRow with
    | some l => Except.ok l
    | none => Except.error ValError.nonCoercible
  else Except.error (ValError.missingColumns missing)

/-- The transactional body of `upsert_competition_list` on the success path:
    append the upload-log entry, upsert applicant scores, delete the
    `(day, program)` application rows absent from the snapshot, then upsert
    the snapshot's application rows. -/
def reconcile (s : DB) (day program now : String) (df : List NormRow) : DB :=
  let s1 : DB := { s with loads := s.loads ++ [⟨day, program, now⟩] }
  let s2 : DB := { s1 with applicants := applyApplicantBatch df s1.applicants }
  let s3 : DB :=
    { s2 with applications := deleteAbsentApps day program (df.map (·.id)) s2.applications }
  { s3 with applications := applyAppBatch day program now df s3.applications }

inductive RecError where
  | validation (e : ValError)
  | store
deriving DecidableEq, Repr

/-- `upsert_competition_list`: normalize (before any write), then run the
    transactional body inside `with engine.begin()`. `storeFails` models a
    store-level failure inside the transaction; the transaction then rolls
    back and the observable state is the pre-state. The result is the pair
    (surfaced error, observable post-state). -/
def upsert_competition_list (s : DB) (day program now : String) (raw : RawDF)
    (storeFails : Bool) : Option RecError × DB :=
  match normalize_df raw with
  | Except.error e => (some (RecError.validation e), s)
  | Except.ok df =>
    if storeFails then (some RecError.store, s)
    else (none, reconcile s day program now df)

/-- A joined row returned by `query_program_list`. -/
structure QueryRow where
  id : Int
  consent : Int
  priority : Int
  phys : Int
  rus : Int
  math : Int
  indiv : Int
  total : Int
deriving DecidableEq, Repr

/-- Stable insertion sort: the model of Python's stable `sorted` and of SQL
    `ORDER BY` (SQL leaves the relative order of key-tied rows unspecified;
    the model resolves ties by stored row order). -/
def insertLe {α : Type} (le : α → α → Bool) (a : α) : List α → List α
  | [] => [a]
  | b :: l => if le a b then a :: b :: l else b :: insertLe le a l

def sortByLe {α : Type} (le : α → α → Bool) : List α → List α
  | [] => []
  | a :: l => insertLe le a (sortByLe le l)

/-- `ORDER BY` keys of `query_program_list`: `total_asc`, `id_asc`, and the
    default `total DESC, id ASC`. -/
def querySortLe (sort : String) (a b : QueryRow) : Bool :=
  if sort = "total_asc" then decide (a.total < b.total ∨ (a.total = b.total ∧ a.id ≤ b.id))
  else if sort = "id_asc" then decide (a.id ≤ b.id)
  else decide (b.total < a.total ∨ (a.total = b.total ∧ a.id ≤ b.id))

/-- `WHERE` clause of `query_program_list`: the day filter is added only when a
    day is given, the consent filter only when `consent in (0, 1)`. -/
def queryRowMatches (program : String) (day : Option String) (consent : Option Int)
    (a : AppRow) : Bool :=
  decide (a.program = program) &&
    (match day with
     | none => true
     | some d => decide (a.day = d)) &&
    (match consent with
     | none => true
     | some c => if c = 0 ∨ c = 1 then decide (a.consent = c) else true)

/-- `query_program_list`: join `applications` with `applicants`, filter by
    program and optional day/consent, sort by the requested key. -/
def query_program_list (s : DB) (program : String) (day : Option String)
    (consent : Option Int) (sort : String) : List QueryRow :=
  let joined := s.applications.filterMap (fun a =>
    if queryRowMatches program day consent a then
      (lookupApplicant s.applicants a.applicant_id).map (fun b =>
        (⟨a.applicant_id, a.consent, a.priority, b.phys, b.rus, b.math, b.indiv, b.total⟩ :
          QueryRow))
    else none)
  sortByLe (querySortLe sort) joined

/-! ### Allocation engine -/

def PROGRAMS : List String := ["PM", "IVT", "ITSS", "IB"]

def SEATS : List (String × Nat) := [("PM", 40), ("IVT", 50), ("ITSS", 30), ("IB", 20)]

/-- An input row of `compute_admission`: columns `id, program, priority, consent, total`. -/
structure AdmRow where
  id : Int
  program : String
  priority : Int
  consent : Int
  total : Int
deriving DecidableEq, Repr

/-- Python dict read `d[k]`, as an association list with unique keys. -/
def lookupAssoc {β : Type} : List (String × β) → String → Option β
  | [], _ => none
  | kv :: l, k => if kv.1 = k then some kv.2 else lookupAssoc l k

/-- Python dict write `d[k] = v` for a key already present. -/
def updateAssoc {β : Type} (k : String) (v : β) : List (String × β) → List (String × β)
  | [] => []
  | kv :: l => if kv.1 = k then (kv.1, v) :: l else kv :: updateAssoc k v l

/-- `df = df[df["consent"] == 1]`: only consenting applications participate. -/
def consenting (rows : List AdmRow) : List AdmRow :=
  rows.filter (fun r => decide (r.consent = 1))

/-- Insertion order of the `apps` / `scores` dict keys: applicant ids in order
    of first appearance among the consenting rows. -/
def firstKeysAux (seen : List Int) : List AdmRow → List Int
  | [] => []
  | r :: l => if r.id ∈ seen then firstKeysAux seen l else r.id :: firstKeysAux (r.id :: seen) l

def firstKeys (l : List AdmRow) : List Int := firstKeysAux [] l

/-- `scores[aid]` after the build loop: the `total` of the last consenting row
    for `aid` (each iteration overwrites the dict entry; ids never written are
    never read back either, and are defaulted to 0 here). -/
def scoreOf (fl : List AdmRow) (aid : Int) : Int :=
  (((fl.filter (fun r => decide (r.id = aid))).map (·.total)).getLast?).getD 0

/-- `apps[aid]` after `sorted(..., key=lambda t: t[0])`: the applicant's
    program list in ascending-priority order (Python's sort is stable; ties on
    priority keep row order). -/
def prefsOf (fl : List AdmRow) (aid : Int) : List String :=
  (sortByLe (fun a b => decide (a.1 ≤ b.1))
      ((fl.filter (fun r => decide (r.id = aid))).map (fun r => (r.priority, r.program)))).map
    (·.2)

/-- `sorted(scores.keys(), key=lambda i: (-scores[i], i))` as a comparator:
    descending total score, ties broken by ascending applicant id. -/
def admissionOrderLe (fl : List AdmRow) (i j : Int) : Bool :=
  decide (scoreOf fl j < scoreOf fl i ∨ (scoreOf fl i = scoreOf fl j ∧ i ≤ j))

/-- `accepted = {p: [] for p in PROGRAMS}`. -/
def initAccepted : List (String × List Int) := PROGRAMS.map (fun p => (p, []))

/-- The inner `for prog in apps[aid]` loop: assign `aid` to the first listed
    program with a free seat; `accepted[prog]` / `SEATS[prog]` on a program
    outside the dict keys is a `KeyError`, modelled as `none`. -/
def scanPrefs (aid : Int) : List String → List (String × List Int) →
    Option (List (String × List Int))
  | [], acc => some acc
  | prog :: rest, acc =>
    match lookupAssoc acc prog with
    | none => none
    | some lst =>
      match lookupAssoc SEATS prog with
      | none => none
      | some cap =>
        if lst.length < cap then some (updateAssoc prog (lst ++ [aid]) acc)
        else scanPrefs aid rest acc

/-- The outer `for aid in order` loop. -/
def processAll (fl : List AdmRow) : List Int → List (String × List Int) →
    Option (List (String × List Int))
  | [], acc => some acc
  | aid :: rest, acc =>
    match scanPrefs aid (prefsOf fl aid) acc with
    | none => none
    | some acc' => processAll fl rest acc'

/-- `cut[p] = None if len(accepted[p]) < SEATS[p] else scores[accepted[p][-1]]`. -/
def cutoffOf (fl : List AdmRow) (accepted : List (String × List Int)) (p : String) :
    Option Int :=
  let lst := (lookupAssoc accepted p).getD []
  let cap := (lookupAssoc SEATS p).getD 0
  if lst.length < cap then none else lst.getLast?.map (scoreOf fl)

/-- `compute_admission`: consent filter, score-descending/id-ascending
    processing order, greedy first-free-seat pass, per-program cutoffs.
    `none` models the `KeyError` raised on a consenting application whose
    program is not a key of `accepted` / `SEATS`. -/
def compute_admission (rows : List AdmRow) :
    Option (List (String × List Int) × List (String × Option Int)) :=
  if rows.isEmpty then
    some (PROGRAMS.map (fun p => (p, [])), PROGRAMS.map (fun p => (p, none)))
  else
    let fl := consenting rows
    let order := sortByLe (admissionOrderLe fl) (firstKeys fl)
    match processAll fl order initAccepted with
    | none => none
    | some accepted => some (accepted, PROGRAMS.map (fun p => (p, cutoffOf fl accepted p)))

/-- The SQL join feeding `compute_admission_from_db` for a given day. -/
def admRowsForDay (s : DB) (day : String) : List AdmRow :=
  s.applications.filterMap (fun a =>
    if decide (a.day = day) then
      (lookupApplicant s.applicants a.applicant_id).map (fun b =>
        (⟨a.applicant_id, a.program, a.priority, a.consent, b.total⟩ : AdmRow))
    else none)

def compute_admission_from_db (s : DB) (day : String) :
    Option (List (String × List Int) × List (String × Option Int)) :=
  compute_admission (admRowsForDay s day)

/-! ### Store lemmas -/

/-- The record built by the `applications` upsert's `DO UPDATE` branch is the
    incoming row whenever the primary keys agree. -/
theorem upsertAppRow_update_eq (r x : AppRow)
    (h : x.day = r.day ∧ x.program = r.program ∧ x.applicant_id = r.applicant_id) :
    ({ x with consent := r.consent, priority := r.priority, loaded_at := r.loaded_at } :
      AppRow) = r := by
  obtain ⟨h1, h2, h3⟩ := h
  cases r; cases x; simp_all

theorem upsertAppRow_cons (r x : AppRow) (l : List AppRow) :
    upsertAppRow r (x :: l) =
      if x.day = r.day ∧ x.program = r.program ∧ x.applicant_id = r.applicant_id then
        ({ x with consent := r.consent, priority := r.priority, loaded_at := r.loaded_at } :
          AppRow) :: l
      else x :: upsertAppRow r l := rfl

theorem lookupApp_cons (x : AppRow) (l : List AppRow) (d p : String) (i : Int) :
    lookupApp (x :: l) d p i =
      if x.day = d ∧ x.program = p ∧ x.applicant_id = i then some x
      else lookupApp l d p i := rfl

theorem lookupApp_upsertAppRow (r : AppRow) (l : List AppRow) (d p : String) (i : Int) :
    lookupApp (upsertAppRow r l) d p i =
      if r.day = d ∧ r.program = p ∧ r.applicant_id = i then some r
      else lookupApp l d p i := by
  induction l with
  | nil =>
    by_cases h : r.day = d ∧ r.program = p ∧ r.applicant_id = i <;>
      simp [upsertAppRow, lookupApp, h]
  | cons x l ih =>
    rw [upsertAppRow_cons]
    by_cases hk : x.day = r.day ∧ x.program = r.program ∧ x.applicant_id = r.applicant_id
    · rw [if_pos hk, upsertAppRow_update_eq r x hk, lookupApp_cons]
      by_cases hq : r.day = d ∧ r.program = p ∧ r.applicant_id = i
      · rw [if_pos hq, if_pos hq]
      · have hxq : ¬(x.day = d ∧ x.program = p ∧ x.applicant_id = i) := by
          rintro ⟨a, b, c⟩
          exact hq ⟨by rw [← hk.1, a], by rw [← hk.2.1, b], by rw [← hk.2.2, c]⟩
        rw [if_neg hq, if_neg hq, lookupApp_cons, if_neg hxq]
    · rw [if_neg hk, lookupApp_cons]
      by_cases hxq : x.day = d ∧ x.program = p ∧ x.applicant_id = i
      · have hq : ¬(r.day = d ∧ r.program = p ∧ r.applicant_id = i) := by
          rintro ⟨a, b, c⟩
          exact hk ⟨by rw [hxq.1, a], by rw [hxq.2.1, b], by rw [hxq.2.2, c]⟩
        rw [if_pos hxq, if_neg hq, lookupApp_cons, if_pos hxq]
      · rw [if_neg hxq, ih, lookupApp_cons, if_neg hxq]

theorem upsertApplicantRow_update_eq (a x : ApplicantRow) (h : x.id = a.id) :
    ({ x with phys := a.phys, rus := a.rus, math := a.math, indiv := a.indiv,
              total := a.total } : ApplicantRow) = a := by
  cases a; cases x; simp_all

theorem upsertApplicantRow_cons (a x : ApplicantRow) (l : List ApplicantRow) :
    upsertApplicantRow a (x :: l) =
      if x.id = a.id then
        ({ x with phys := a.phys, rus := a.rus, math := a.math, indiv := a.indiv,
                  total := a.total } : ApplicantRow) :: l
      else x :: upsertApplicantRow a l := rfl

theorem lookupApplicant_cons (x : ApplicantRow) (l : List ApplicantRow) (i : Int) :
    lookupApplicant (x :: l) i = if x.id = i then some x else lookupApplicant l i := rfl

theorem lookupApplicant_upsertApplicantRow (a : ApplicantRow) (l : List ApplicantRow)
    (i : Int) :
    lookupApplicant (upsertApplicantRow a l) i =
      if a.id = i then some a else lookupApplicant l i := by
  induction l with
  | nil => by_cases h : a.id = i <;> simp [upsertApplicantRow, lookupApplicant, h]
  | cons x l ih =>
    rw [upsertApplicantRow_cons]
    by_cases hk : x.id = a.id
    · rw [if_pos hk, upsertApplicantRow_update_eq a x hk, lookupApplicant_cons]
      by_cases hq : a.id = i
      · rw [if_pos hq, if_pos hq]
      · have hxq : ¬(x.id = i) := fun h => hq (hk ▸ h)
        rw [if_neg hq, if_neg hq, lookupApplicant_cons, if_neg hxq]
    · rw [if_neg hk, lookupApplicant_cons]
      by_cases hxq : x.id = i
      · have hq : ¬(a.id = i) := fun h => hk (by rw [hxq, h])
        rw [if_pos hxq, if_neg hq, lookupApplicant_cons, if_pos hxq]
      · rw [if_neg hxq, ih, lookupApplicant_cons, if_neg hxq]

theorem lookupApp_deleteAbsentApps (day program : String) (newIds : List Int)
    (l : List AppRow) (d p : String) (i : Int) :
    lookupApp (deleteAbsentApps day program newIds l) d p i =
      if d = day ∧ p = program ∧ i ∉ newIds then none else lookupApp l d p i := by
  induction l with
  | nil => by_cases h : d = day ∧ p = program ∧ i ∉ newIds <;> simp [deleteAbsentApps, lookupApp, h]
  | cons x l ih =>
    by_cases hdel : x.day = day ∧ x.program = program ∧ x.applicant_id ∉ newIds
    · -- x is deleted
      have hstep : deleteAbsentApps day program newIds (x :: l) =
          deleteAbsentApps day program newIds l := by
        simp [deleteAbsentApps, List.filter_cons, hdel]
      rw [hstep, ih]
      by_cases hq : d = day ∧ p = program ∧ i ∉ newIds
      · simp [hq]
      · -- x does not have the queried key: otherwise the query key would be deleted
        have hxq : ¬(x.day = d ∧ x.program = p ∧ x.applicant_id = i) := by
          rintro ⟨a, b, c⟩
          exact hq ⟨by rw [← a, hdel.1], by rw [← b, hdel.2.1], by rw [← c]; exact hdel.2.2⟩
        simp [hq, lookupApp, hxq]
    · -- x is kept
      have hstep : deleteAbsentApps day program newIds (x :: l) =
          x :: deleteAbsentApps day program newIds l := by
        simp [deleteAbsentApps, List.filter_cons, hdel]
      rw [hstep]
      by_cases hxq : x.day = d ∧ x.program = p ∧ x.applicant_id = i
      · have hq : ¬(d = day ∧ p = program ∧ i ∉ newIds) := by
          rintro ⟨a, b, c⟩
          exact hdel ⟨by rw [hxq.1, a], by rw [hxq.2.1, b], by rw [hxq.2.2]; exact c⟩
        simp [lookupApp, hxq, hq]
      · simp [lookupApp, hxq, ih]

/-- The last upload row carrying a given applicant id (the one whose values win
    in a last-write-wins upsert sequence). -/
def lastRowFor (df : List NormRow) (i : Int) : Option NormRow :=
  (df.filter (fun r => decide (r.id = i))).getLast?

theorem lastRowFor_nil (i : Int) : lastRowFor [] i = none := rfl

theorem getLast?_cons_ne_none {α : Type} (a : α) (l : List α) : (a :: l).getLast? ≠ none := by
  induction l generalizing a with
  | nil => simp [List.getLast?]
  | cons b t ih => rw [List.getLast?_cons_cons]; exact ih b

theorem lastRowFor_cons (r : NormRow) (df : List NormRow) (i : Int) :
    lastRowFor (r :: df) i =
      if r.id = i then (match lastRowFor df i with
        | some x => some x
        | none => some r)
      else lastRowFor df i := by
  by_cases h : r.id = i
  · rw [if_pos h]
    have hfil : (r :: df).filter (fun r => decide (r.id = i)) =
        r :: df.filter (fun r => decide (r.id = i)) := by
      simp [List.filter_cons, h]
    cases hf : lastRowFor df i with
    | none =>
      have hnil : df.filter (fun r => decide (r.id = i)) = [] := by
        cases hl : df.filter (fun r => decide (r.id = i)) with
        | nil => rfl
        | cons a as =>
          exfalso
          have h2 : lastRowFor df i = (a :: as).getLast? := by rw [lastRowFor, hl]
          rw [hf] at h2
          exact getLast?_cons_ne_none a as h2.symm
      rw [lastRowFor, hfil, hnil]; rfl
    | some x =>
      cases hl : df.filter (fun r => decide (r.id = i)) with
      | nil =>
        exfalso
        have h2 : lastRowFor df i = none := by rw [lastRowFor, hl]; rfl
        rw [hf] at h2; exact Option.noConfusion h2
      | cons a as =>
        have h1 : lastRowFor (r :: df) i = (a :: as).getLast? := by
          rw [lastRowFor, hfil, hl, List.getLast?_cons_cons]
        have h2 : lastRowFor df i = (a :: as).getLast? := by rw [lastRowFor, hl]
        rw [h1, ← h2, hf]
  · rw [if_neg h]
    have hfil : (r :: df).filter (fun r => decide (r.id = i)) =
        df.filter (fun r => decide (r.id = i)) := by
      simp [List.filter_cons, h]
    rw [lastRowFor, hfil, lastRowFor]

theorem lastRowFor_eq_none_iff (df : List NormRow) (i : Int) :
    lastRowFor df i = none ↔ i ∉ df.map (·.id) := by
  induction df with
  | nil => simp [lastRowFor_nil]
  | cons r df ih =>
    rw [lastRowFor_cons]
    by_cases h : r.id = i
    · cases hf : lastRowFor df i <;> simp [h, hf]
    · rw [if_neg h, ih]
      simp only [List.map_cons, List.mem_cons, not_or]
      constructor
      · intro hni; exact ⟨fun he => h he.symm, hni⟩
      · rintro ⟨-, hni⟩; exact hni

theorem lastRowFor_id (df : List NormRow) (i : Int) :
    ∀ r : NormRow, lastRowFor df i = some r → r.id = i := by
  induction df with
  | nil => intro r h; simp [lastRowFor_nil] at h
  | cons x df ih =>
    intro r h
    rw [lastRowFor_cons] at h
    by_cases hx : x.id = i
    · rw [if_pos hx] at h
      cases hf : lastRowFor df i with
      | none =>
        rw [hf] at h
        have hxr : x = r := Option.some.inj h
        rw [← hxr]; exact hx
      | some y =>
        rw [hf] at h
        have hyr : y = r := Option.some.inj h
        rw [← hyr]; exact ih y hf
    · rw [if_neg hx] at h; exact ih r h

theorem applyApplicantBatch_nil (l : List ApplicantRow) : applyApplicantBatch [] l = l := rfl

theorem applyApplicantBatch_cons (r : NormRow) (df : List NormRow) (l : List ApplicantRow) :
    applyApplicantBatch (r :: df) l =
      applyApplicantBatch df (upsertApplicantRow (applicantRowOf r) l) := rfl

theorem lookupApplicant_applyApplicantBatch (df : List NormRow) (l : List ApplicantRow)
    (i : Int) :
    lookupApplicant (applyApplicantBatch df l) i =
      match lastRowFor df i with
      | some r => some (applicantRowOf r)
      | none => lookupApplicant l i := by
  induction df generalizing l with
  | nil => rw [applyApplicantBatch_nil, lastRowFor_nil]
  | cons r df ih =>
    rw [applyApplicantBatch_cons, ih, lastRowFor_cons]
    cases hf : lastRowFor df i with
    | some x =>
      by_cases h : r.id = i <;> simp [h]
    | none =>
      rw [lookupApplicant_upsertApplicantRow]
      have hid : (applicantRowOf r).id = r.id := rfl
      by_cases h : r.id = i
      · simp [hid, h]
      · simp [hid, h]

theorem applyAppBatch_nil (day program now : String) (l : List AppRow) :
    applyAppBatch day program now [] l = l := rfl

theorem applyAppBatch_cons (day program now : String) (r : NormRow) (df : List NormRow)
    (l : List AppRow) :
    applyAppBatch day program now (r :: df) l =
      applyAppBatch day program now df (upsertAppRow (appRowOf day program now r) l) := rfl

theorem lookupApp_applyAppBatch (day program now : String) (df : List NormRow)
    (l : List AppRow) (d p : String) (i : Int) :
    lookupApp (applyAppBatch day program now df l) d p i =
      if d = day ∧ p = program then
        (match lastRowFor df i with
         | some r => some (appRowOf day program now r)
         | none => lookupApp l d p i)
      else lookupApp l d p i := by
  induction df generalizing l with
  | nil =>
    rw [applyAppBatch_nil, lastRowFor_nil]
    by_cases h : d = day ∧ p = program <;> simp [h]
  | cons r df ih =>
    rw [applyAppBatch_cons, ih, lastRowFor_cons]
    have hkey : ((appRowOf day program now r).day = d ∧ (appRowOf day program now r).program = p ∧
        (appRowOf day program now r).applicant_id = i) ↔ (day = d ∧ program = p ∧ r.id = i) :=
      Iff.rfl
    by_cases hpart : d = day ∧ p = program
    · rw [if_pos hpart, if_pos hpart]
      cases hf : lastRowFor df i with
      | some x =>
        by_cases h : r.id = i <;> simp [h]
      | none =>
        rw [lookupApp_upsertAppRow]
        by_cases h : r.id = i
        · have : (appRowOf day program now r).day = d ∧ (appRowOf day program now r).program = p ∧
              (appRowOf day program now r).applicant_id = i :=
            ⟨hpart.1.symm, hpart.2.symm, h⟩
          rw [if_pos this, if_pos h]
        · have : ¬((appRowOf day program now r).day = d ∧ (appRowOf day program now r).program = p ∧
              (appRowOf day program now r).applicant_id = i) := by
            rintro ⟨-, -, hc⟩; exact h hc
          rw [if_neg this, if_neg h]
    · rw [if_neg hpart, if_neg hpart, lookupApp_upsertAppRow]
      have : ¬((appRowOf day program now r).day = d ∧ (appRowOf day program now r).program = p ∧
          (appRowOf day program now r).applicant_id = i) := by
        rintro ⟨ha, hb, -⟩; exact hpart ⟨ha.symm, hb.symm⟩
      rw [if_neg this]

theorem reconcile_loads (s : DB) (day program now : String) (df : List NormRow) :
    (reconcile s day program now df).loads = s.loads ++ [⟨day, program, now⟩] := rfl

theorem reconcile_applicants (s : DB) (day program now : String) (df : List NormRow) :
    (reconcile s day program now df).applicants = applyApplicantBatch df s.applicants := rfl

theorem reconcile_applications (s : DB) (day program now : String) (df : List NormRow) :
    (reconcile s day program now df).applications =
      applyAppBatch day program now df
        (deleteAbsentApps day program (df.map (·.id)) s.applications) := rfl

/-- After the success path of reconciliation, an `applications` key maps to the
    last snapshot row with its id inside the `(day, program)` partition, and to
    its old value outside it. -/
theorem lookupApp_reconcile (s : DB) (day program now : String) (df : List NormRow)
    (d p : String) (i : Int) :
    lookupApp (reconcile s day program now df).applications d p i =
      if d = day ∧ p = program then
        (match lastRowFor df i with
         | some r => some (appRowOf day program now r)
         | none => none)
      else lookupApp s.applications d p i := by
  rw [reconcile_applications, lookupApp_applyAppBatch]
  by_cases hpart : d = day ∧ p = program
  · rw [if_pos hpart, if_pos hpart]
    cases hf : lastRowFor df i with
    | some x => rfl
    | none =>
      rw [lookupApp_deleteAbsentApps]
      have hni : i ∉ df.map (·.id) := (lastRowFor_eq_none_iff df i).mp hf
      rw [if_pos ⟨hpart.1, hpart.2, hni⟩]
  · rw [if_neg hpart, if_neg hpart, lookupApp_deleteAbsentApps]
    have : ¬(d = day ∧ p = program ∧ i ∉ df.map (·.id)) := by
      rintro ⟨ha, hb, -⟩; exact hpart ⟨ha, hb⟩
    rw [if_neg this]

/-- After the success path of reconciliation, an `applicants` key maps to the
    scores of the last snapshot row with its id, and otherwise to its old value. -/
theorem lookupApplicant_reconcile (s : DB) (day program now : String) (df : List NormRow)
    (i : Int) :
    lookupApplicant (reconcile s day program now df).applicants i =
      match lastRowFor df i with
      | some r => some (applicantRowOf r)
      | none => lookupApplicant s.applicants i := by
  rw [reconcile_applicants, lookupApplicant_applyApplicantBatch]

theorem mem_ids_iff_lookup (l : List AppRow) (d p : String) (i : Int) :
    (i ∈ (l.filter (fun r => decide (r.day = d ∧ r.program = p))).map (·.applicant_id)) ↔
      (lookupApp l d p i).isSome := by
  induction l with
  | nil => simp [lookupApp]
  | cons x l ih =>
    rw [lookupApp_cons]
    by_cases hk : x.day = d ∧ x.program = p ∧ x.applicant_id = i
    · have hpart : x.day = d ∧ x.program = p := ⟨hk.1, hk.2.1⟩
      simp [List.filter_cons, hpart, hk.2.2]
    · rw [if_neg hk]
      by_cases hpart : x.day = d ∧ x.program = p
      · have hne : ¬x.applicant_id = i := fun hc => hk ⟨hpart.1, hpart.2, hc⟩
        have hfil : (x :: l).filter (fun r => decide (r.day = d ∧ r.program = p)) =
            x :: l.filter (fun r => decide (r.day = d ∧ r.program = p)) := by
          simp [List.filter_cons, hpart]
        rw [hfil, List.map_cons, List.mem_cons]
        constructor
        · rintro (hc | hm)
          · exact absurd hc.symm hne
          · exact ih.mp hm
        · intro hs; exact Or.inr (ih.mpr hs)
      · have hfil : (x :: l).filter (fun r => decide (r.day = d ∧ r.program = p)) =
            l.filter (fun r => decide (r.day = d ∧ r.program = p)) := by
          simp [List.filter_cons, hpart]
        rw [hfil]
        exact ih

theorem mem_listApplicationIds_iff (s : DB) (d p : String) (i : Int) :
    i ∈ listApplicationIds s d p ↔ (lookupApp s.applications d p i).isSome := by
  rw [listApplicationIds]; exact mem_ids_iff_lookup s.applications d p i

theorem filter_other_upsertAppRow (d p : String) (r' : AppRow) (l : List AppRow)
    (h : ¬(d = r'.day ∧ p = r'.program)) :
    (upsertAppRow r' l).filter (fun r => decide (r.day = d ∧ r.program = p)) =
      l.filter (fun r => decide (r.day = d ∧ r.program = p)) := by
  induction l with
  | nil =>
    have hr : ¬(r'.day = d ∧ r'.program = p) := fun hc => h ⟨hc.1.symm, hc.2.symm⟩
    simp [upsertAppRow, List.filter_cons, hr]
  | cons x l ih =>
    rw [upsertAppRow_cons]
    by_cases hk : x.day = r'.day ∧ x.program = r'.program ∧ x.applicant_id = r'.applicant_id
    · rw [if_pos hk]
      have hx : ¬(x.day = d ∧ x.program = p) := fun hc =>
        h ⟨by rw [← hc.1, hk.1], by rw [← hc.2, hk.2.1]⟩
      simp [List.filter_cons, hx]
    · rw [if_neg hk]
      by_cases hx : x.day = d ∧ x.program = p
      · simp only [List.filter_cons]
        simp only [hx.1, hx.2, and_self, decide_true_eq_true]
        rw [ih]
      · have hb : (decide (x.day = d ∧ x.program = p)) = false := by simp [hx]
        simp only [List.filter_cons, hb]
        exact ih

theorem filter_other_applyAppBatch (day program now d p : String) (df : List NormRow)
    (l : List AppRow) (h : ¬(d = day ∧ p = program)) :
    (applyAppBatch day program now df l).filter (fun r => decide (r.day = d ∧ r.program = p)) =
      l.filter (fun r => decide (r.day = d ∧ r.program = p)) := by
  induction df generalizing l with
  | nil => rw [applyAppBatch_nil]
  | cons r df ih =>
    rw [applyAppBatch_cons, ih]
    exact filter_other_upsertAppRow d p (appRowOf day program now r) l h

theorem filter_other_deleteAbsentApps (day program d p : String) (ids : List Int)
    (l : List AppRow) (h : ¬(d = day ∧ p = program)) :
    (deleteAbsentApps day program ids l).filter (fun r => decide (r.day = d ∧ r.program = p)) =
      l.filter (fun r => decide (r.day = d ∧ r.program = p)) := by
  induction l with
  | nil => rfl
  | cons x l ih =>
    by_cases hx : x.day = d ∧ x.program = p
    · have hkeep : ¬(x.day = day ∧ x.program = program ∧ x.applicant_id ∉ ids) := by
        rintro ⟨ha, hb, -⟩
        exact h ⟨by rw [← hx.1, ha], by rw [← hx.2, hb]⟩
      have hstep : deleteAbsentApps day program ids (x :: l) =
          x :: deleteAbsentApps day program ids l := by
        simp [deleteAbsentApps, List.filter_cons, hkeep]
      rw [hstep]
      simp only [List.filter_cons]
      simp only [hx.1, hx.2, and_self, decide_true_eq_true]
      rw [ih]
    · by_cases hdel : x.day = day ∧ x.program = program ∧ x.applicant_id ∉ ids
      · have hstep : deleteAbsentApps day program ids (x :: l) =
            deleteAbsentApps day program ids l := by
          simp [deleteAbsentApps, List.filter_cons, hdel]
        rw [hstep, ih]
        have hb : (decide (x.day = d ∧ x.program = p)) = false := by simp [hx]
        simp only [List.filter_cons, hb, Bool.false_eq_true, if_false]
      · have hstep : deleteAbsentApps day program ids (x :: l) =
            x :: deleteAbsentApps day program ids l := by
          simp [deleteAbsentApps, List.filter_cons, hdel]
        rw [hstep]
        have hb : (decide (x.day = d ∧ x.program = p)) = false := by simp [hx]
        simp only [List.filter_cons, hb]
        exact ih

/-- Reconciliation leaves every other `(day, program)` partition untouched,
    row for row. -/
theorem listApplicationIds_reconcile_other (s : DB) (day program now : String)
    (df : List NormRow) (d p : String) (h : ¬(d = day ∧ p = program)) :
    listApplicationIds (reconcile s day program now df) d p = listApplicationIds s d p := by
  rw [listApplicationIds, listApplicationIds, reconcile_applications,
    filter_other_applyAppBatch day program now d p df _ h,
    filter_other_deleteAbsentApps day program d p _ _ h]

/-- After reconciliation the `(day, program)` id set is exactly the batch's id set. -/
theorem mem_listApplicationIds_reconcile (s : DB) (day program now : String)
    (df : List NormRow) (i : Int) :
    i ∈ listApplicationIds (reconcile s day program now df) day program ↔
      i ∈ df.map (·.id) := by
  rw [mem_listApplicationIds_iff, lookupApp_reconcile, if_pos ⟨rfl, rfl⟩]
  cases hf : lastRowFor df i with
  | some r =>
    have hne : lastRowFor df i ≠ none := by rw [hf]; exact fun hc => Option.noConfusion hc
    have hmem : i ∈ df.map (·.id) := by
      by_contra hni
      exact hne ((lastRowFor_eq_none_iff df i).mpr hni)
    simp [hmem]
  | none =>
    have hni : i ∉ df.map (·.id) := (lastRowFor_eq_none_iff df i).mp hf
    simp [hni]

/-- On the success path the observable post-state is the reconciled state. -/
theorem upsert_success_eq (s : DB) (day program now : String) (raw : RawDF)
    (df : List NormRow) (storeFails : Bool) (s' : DB)
    (hnorm : normalize_df raw = Except.ok df)
    (h : upsert_competition_list s day program now raw storeFails = (none, s')) :
    s' = reconcile s day program now df := by
  unfold upsert_competition_list at h
  rw [hnorm] at h
  cases storeFails with
  | true => exact absurd (congrArg Prod.fst h) (by simp)
  | false =>
    have := congrArg Prod.snd h
    simpa using this.symm

/-! ### Concrete fixtures -/

/-- A well-formed one-row upload batch (id 1, consent 1, priority 1, scores 10/10/10/5, total 35). -/
def raw1 : RawDF :=
  ⟨requiredCols,
   [⟨[("id", some 1), ("consent", some 1), ("priority", some 1), ("phys", some 10),
      ("rus", some 10), ("math", some 10), ("indiv", some 5), ("total", some 35)]⟩]⟩

def df1 : List NormRow := [⟨1, 1, 1, 10, 10, 10, 5, 35⟩]

/-- An upload batch missing every required column. -/
def rawMissing : RawDF := ⟨["id"], []⟩

/-! ### Store claims -/

/-- C2: for every (day, program) and prior store state, after a successful
    reconciliation the stored application id set for that (day, program)
    equals exactly the batch's id set, and no other (day, program)
    partition's application rows change. -/
theorem C2_snapshot_totality (s : DB) (day program now : String) (raw : RawDF)
    (df : List NormRow) (storeFails : Bool) (s' : DB)
    (hnorm : normalize_df raw = Except.ok df)
    (h : upsert_competition_list s day program now raw storeFails = (none, s')) :
    (∀ i, i ∈ listApplicationIds s' day program ↔ i ∈ df.map (·.id)) ∧
    (∀ d p, ¬(d = day ∧ p = program) →
      listApplicationIds s' d p = listApplicationIds s d p) := by
  have hs' := upsert_success_eq s day program now raw df storeFails s' hnorm h
  subst hs'
  exact ⟨fun i => mem_listApplicationIds_reconcile s day program now df i,
    fun d p hdp => listApplicationIds_reconcile_other s day program now df d p hdp⟩

theorem C2_snapshot_totality_witness :
    (∀ i, i ∈ listApplicationIds
        (upsert_competition_list emptyDB "2024-08-01" "PM" "t" raw1 false).2 "2024-08-01" "PM" ↔
      i ∈ df1.map (·.id)) ∧
    (∀ d p, ¬(d = "2024-08-01" ∧ p = "PM") →
      listApplicationIds (upsert_competition_list emptyDB "2024-08-01" "PM" "t" raw1 false).2 d p =
        listApplicationIds emptyDB d p) :=
  C2_snapshot_totality emptyDB "2024-08-01" "PM" "t" raw1 df1 false
    (upsert_competition_list emptyDB "2024-08-01" "PM" "t" raw1 false).2 (by rfl) (by rfl)

/-- C4: if reconciliation fails — validation failure (missing column or
    non-coercible value) before the transaction, or store failure inside it —
    the observable store state is exactly the pre-operation state: no
    upload-log entry, applicant edits or application edits are retained. -/
theorem C4_failure_atomicity (s : DB) (day program now : String) (raw : RawDF)
    (storeFails : Bool)
    (h : (upsert_competition_list s day program now raw storeFails).1 ≠ none) :
    (upsert_competition_list s day program now raw storeFails).2 = s := by
  unfold upsert_competition_list at h ⊢
  cases hn : normalize_df raw with
  | error e => rfl
  | ok df =>
    rw [hn] at h
    cases storeFails with
    | true => rfl
    | false => exact absurd rfl h

theorem C4_failure_atomicity_witness :
    (upsert_competition_list emptyDB "2024-08-01" "PM" "t" rawMissing false).1 ≠ none ∧
    (upsert_competition_list emptyDB "2024-08-01" "PM" "t" rawMissing false).2 = emptyDB :=
  ⟨by decide, C4_failure_atomicity emptyDB "2024-08-01" "PM" "t" rawMissing false (by decide)⟩

/-- C5 counterexample: uploading the same batch twice in a row does NOT yield
    an identical store state — the append-only upload log gains a second
    entry, so the state after the second upload differs from the state after
    the first even with identical timestamps. -/
theorem C5_counterexample :
    (upsert_competition_list
        (upsert_competition_list emptyDB "2024-08-01" "PM" "t" raw1 false).2
        "2024-08-01" "PM" "t" raw1 false).2 ≠
      (upsert_competition_list emptyDB "2024-08-01" "PM" "t" raw1 false).2 := by
  decide

/-- C5 (amended): uploading the same batch for (day, program) twice in a row
    with the same timestamp leaves the applicant table and the applications
    table identical (every key maps to the same record) after the second
    upload as after the first; only the append-only upload log differs, by
    exactly one more entry. -/
theorem C5_amended_idempotence (s : DB) (day program now : String) (raw : RawDF)
    (df : List NormRow) (s1 s2 : DB)
    (hnorm : normalize_df raw = Except.ok df)
    (h1 : upsert_competition_list s day program now raw false = (none, s1))
    (h2 : upsert_competition_list s1 day program now raw false = (none, s2)) :
    (∀ i, lookupApplicant s2.applicants i = lookupApplicant s1.applicants i) ∧
    (∀ d p i, lookupApp s2.applications d p i = lookupApp s1.applications d p i) ∧
    s2.loads = s1.loads ++ [⟨day, program, now⟩] := by
  have hs1 := upsert_success_eq s day program now raw df false s1 hnorm h1
  have hs2 := upsert_success_eq s1 day program now raw df false s2 hnorm h2
  subst hs2
  refine ⟨fun i => ?_, fun d p i => ?_, reconcile_loads s1 day program now df⟩
  · rw [lookupApplicant_reconcile]
    cases hf : lastRowFor df i with
    | some r =>
      rw [hs1, lookupApplicant_reconcile, hf]
    | none => rfl
  · rw [lookupApp_reconcile]
    by_cases hpart : d = day ∧ p = program
    · rw [if_pos hpart, hs1, lookupApp_reconcile, if_pos hpart]
    · rw [if_neg hpart]

theorem C5_amended_idempotence_witness :
    (∀ i, lookupApplicant
        (upsert_competition_list (upsert_competition_list emptyDB "2024-08-01" "PM" "t" raw1 false).2
          "2024-08-01" "PM" "t" raw1 false).2.applicants i =
      lookupApplicant (upsert_competition_list emptyDB "2024-08-01" "PM" "t" raw1 false).2.applicants i) ∧
    (∀ d p i, lookupApp
        (upsert_competition_list (upsert_competition_list emptyDB "2024-08-01" "PM" "t" raw1 false).2
          "2024-08-01" "PM" "t" raw1 false).2.applications d p i =
      lookupApp (upsert_competition_list emptyDB "2024-08-01" "PM" "t" raw1 false).2.applications d p i) ∧
    (upsert_competition_list (upsert_competition_list emptyDB "2024-08-01" "PM" "t" raw1 false).2
        "2024-08-01" "PM" "t" raw1 false).2.loads =
      (upsert_competition_list emptyDB "2024-08-01" "PM" "t" raw1 false).2.loads ++
        [⟨"2024-08-01", "PM", "t"⟩] :=
  C5_amended_idempotence emptyDB "2024-08-01" "PM" "t" raw1 df1
    (upsert_competition_list emptyDB "2024-08-01" "PM" "t" raw1 false).2
    (upsert_competition_list (upsert_competition_list emptyDB "2024-08-01" "PM" "t" raw1 false).2
      "2024-08-01" "PM" "t" raw1 false).2
    (by rfl) (by rfl) (by rfl)

/-- C7 counterexample: uploading a batch for the unknown program code "XX"
    raises no error at all — it silently succeeds and stores the rows; no
    ConfigurationError is surfaced to the caller. -/
theorem C7_counterexample :
    (upsert_competition_list emptyDB "2024-08-01" "XX" "t" raw1 false).1 = none ∧
    listApplicationIds (upsert_competition_list emptyDB "2024-08-01" "XX" "t" raw1 false).2
      "2024-08-01" "XX" = [1] := by
  decide

/-- C7 (amended): neither uploads nor queries validate the program code
    against the configured program map: an upload referencing any program
    string succeeds whenever the batch itself is valid and the store does not
    fail, and a query for a program with no stored rows silently returns the
    empty list; no ConfigurationError is ever raised. -/
theorem C7_amended_no_program_validation :
    (∀ (s : DB) (day program now : String) (raw : RawDF) (df : List NormRow),
      normalize_df raw = Except.ok df →
      (upsert_competition_list s day program now raw false).1 = none) ∧
    (∀ (s : DB) (program : String) (day : Option String) (consent : Option Int) (sort : String),
      (∀ r ∈ s.applications, r.program ≠ program) →
      query_program_list s program day consent sort = []) := by
  constructor
  · intro s day program now raw df hnorm
    unfold upsert_competition_list
    rw [hnorm]
    rfl
  · intro s program day consent sort h
    unfold query_program_list
    have hnil : s.applications.filterMap (fun a =>
        if queryRowMatches program day consent a then
          (lookupApplicant s.applicants a.applicant_id).map (fun b =>
            (⟨a.applicant_id, a.consent, a.priority, b.phys, b.rus, b.math, b.indiv, b.total⟩ :
              QueryRow))
        else none) = [] := by
      rw [List.filterMap_eq_nil_iff]
      intro a ha
      have hm : queryRowMatches program day consent a = false := by
        unfold queryRowMatches
        have hp : (decide (a.program = program)) = false := by simp [h a ha]
        rw [hp, Bool.false_and, Bool.false_and]
      rw [hm]
      simp
    rw [hnil]
    rfl

theorem C7_amended_no_program_validation_witness :
    (upsert_competition_list emptyDB "2024-08-01" "XX" "t" raw1 false).1 = none ∧
    query_program_list emptyDB "XX" none none "total_desc" = [] :=
  ⟨C7_amended_no_program_validation.1 emptyDB "2024-08-01" "XX" "t" raw1 df1 (by rfl),
   C7_amended_no_program_validation.2 emptyDB "XX" none none "total_desc" (by decide)⟩

/-- C9: reconciliation never deletes an applicant score row — ids absent from
    the new snapshot keep their applicant records unchanged even when their
    application rows are deleted, and every applicant present before is
    present after. -/
theorem C9_applicant_rows_persist (s : DB) (day program now : String) (raw : RawDF)
    (df : List NormRow) (storeFails : Bool) (s' : DB)
    (hnorm : normalize_df raw = Except.ok df)
    (h : upsert_competition_list s day program now raw storeFails = (none, s')) :
    (∀ i, i ∉ df.map (·.id) →
      lookupApplicant s'.applicants i = lookupApplicant s.applicants i) ∧
    (∀ i, (lookupApplicant s.applicants i).isSome → (lookupApplicant s'.applicants i).isSome) := by
  have hs' := upsert_success_eq s day program now raw df storeFails s' hnorm h
  subst hs'
  constructor
  · intro i hni
    rw [lookupApplicant_reconcile, (lastRowFor_eq_none_iff df i).mpr hni]
  · intro i hsome
    rw [lookupApplicant_reconcile]
    cases hf : lastRowFor df i with
    | some r => rfl
    | none => exact hsome

theorem C9_applicant_rows_persist_witness :
    (∀ i, i ∉ df1.map (·.id) →
      lookupApplicant (upsert_competition_list emptyDB "2024-08-01" "PM" "t" raw1 false).2.applicants i =
        lookupApplicant emptyDB.applicants i) ∧
    (∀ i, (lookupApplicant emptyDB.applicants i).isSome →
      (lookupApplicant (upsert_competition_list emptyDB "2024-08-01" "PM" "t" raw1 false).2.applicants i).isSome) :=
  C9_applicant_rows_persist emptyDB "2024-08-01" "PM" "t" raw1 df1 false
    (upsert_competition_list emptyDB "2024-08-01" "PM" "t" raw1 false).2 (by rfl) (by rfl)

/-! ### Sorting lemmas -/

theorem insertLe_perm {α : Type} (le : α → α → Bool) (a : α) (l : List α) :
    (insertLe le a l).Perm (a :: l) := by
  induction l with
  | nil => exact List.Perm.refl _
  | cons b t ih =>
    unfold insertLe
    by_cases h : le a b
    · rw [if_pos h]
    · rw [if_neg h]
      exact (ih.cons b).trans (List.Perm.swap a b t)

theorem sortByLe_perm {α : Type} (le : α → α → Bool) (l : List α) :
    (sortByLe le l).Perm l := by
  induction l with
  | nil => exact List.Perm.refl _
  | cons a t ih => exact (insertLe_perm le a (sortByLe le t)).trans (ih.cons a)

theorem mem_sortByLe {α : Type} (le : α → α → Bool) (l : List α) (a : α) :
    a ∈ sortByLe le l ↔ a ∈ l :=
  (sortByLe_perm le l).mem_iff

theorem pairwise_insertLe {α : Type} (le : α → α → Bool)
    (htot : ∀ a b, le a b = true ∨ le b a = true)
    (htrans : ∀ a b c, le a b = true → le b c = true → le a c = true)
    (a : α) (l : List α) (h : l.Pairwise (fun x y => le x y = true)) :
    (insertLe le a l).Pairwise (fun x y => le x y = true) := by
  induction l with
  | nil => simp [insertLe]
  | cons b t ih =>
    unfold insertLe
    by_cases hab : le a b
    · rw [if_pos hab]
      refine List.pairwise_cons.mpr ⟨?_, h⟩
      intro x hx
      rcases List.mem_cons.mp hx with rfl | hx
      · exact hab
      · exact htrans a b x hab ((List.pairwise_cons.mp h).1 x hx)
    · rw [if_neg hab]
      have hba : le b a = true := (htot a b).resolve_left hab
      refine List.pairwise_cons.mpr ⟨?_, ih (List.pairwise_cons.mp h).2⟩
      intro x hx
      rcases List.mem_cons.mp ((insertLe_perm le a t).mem_iff.mp hx) with rfl | hx
      · exact hba
      · exact (List.pairwise_cons.mp h).1 x hx

theorem pairwise_sortByLe {α : Type} (le : α → α → Bool)
    (htot : ∀ a b, le a b = true ∨ le b a = true)
    (htrans : ∀ a b c, le a b = true → le b c = true → le a c = true)
    (l : List α) : (sortByLe le l).Pairwise (fun x y => le x y = true) := by
  induction l with
  | nil => simp [sortByLe]
  | cons a t ih => exact pairwise_insertLe le htot htrans a (sortByLe le t) ih

/-! ### First-appearance key lemmas -/

theorem mem_firstKeysAux (l : List AdmRow) (i : Int) :
    ∀ seen : List Int, i ∈ firstKeysAux seen l ↔ (∃ r ∈ l, r.id = i) ∧ i ∉ seen := by
  induction l with
  | nil => intro seen; simp [firstKeysAux]
  | cons r t ih =>
    intro seen
    unfold firstKeysAux
    by_cases hm : r.id ∈ seen
    · rw [if_pos hm, ih seen]
      constructor
      · rintro ⟨⟨x, hx, hxi⟩, hni⟩
        exact ⟨⟨x, List.mem_cons_of_mem r hx, hxi⟩, hni⟩
      · rintro ⟨⟨x, hx, hxi⟩, hni⟩
        rcases List.mem_cons.mp hx with hx | hx
        · exfalso; rw [hx] at hxi; rw [hxi] at hm; exact hni hm
        · exact ⟨⟨x, hx, hxi⟩, hni⟩
    · rw [if_neg hm, List.mem_cons, ih (r.id :: seen)]
      constructor
      · rintro (hi | ⟨⟨x, hx, hxi⟩, hni⟩)
        · subst hi
          exact ⟨⟨r, List.mem_cons_self r t, rfl⟩, hm⟩
        · have hni' : i ∉ seen := fun hc => hni (List.mem_cons_of_mem _ hc)
          exact ⟨⟨x, List.mem_cons_of_mem r hx, hxi⟩, hni'⟩
      · rintro ⟨⟨x, hx, hxi⟩, hni⟩
        by_cases hir : i = r.id
        · exact Or.inl hir
        · rcases List.mem_cons.mp hx with hx | hx
          · exfalso; rw [hx] at hxi; exact hir hxi.symm
          · refine Or.inr ⟨⟨x, hx, hxi⟩, ?_⟩
            intro hc
            rcases List.mem_cons.mp hc with hc | hc
            · exact hir hc
            · exact hni hc

theorem nodup_firstKeysAux (l : List AdmRow) :
    ∀ seen : List Int, (firstKeysAux seen l).Nodup := by
  induction l with
  | nil => intro seen; simp [firstKeysAux]
  | cons r t ih =>
    intro seen
    unfold firstKeysAux
    by_cases hm : r.id ∈ seen
    · rw [if_pos hm]; exact ih seen
    · rw [if_neg hm]
      refine List.nodup_cons.mpr ⟨?_, ih (r.id :: seen)⟩
      intro hc
      exact ((mem_firstKeysAux t r.id (r.id :: seen)).mp hc).2 (List.mem_cons_self _ _)

theorem mem_firstKeys (l : List AdmRow) (i : Int) :
    i ∈ firstKeys l ↔ ∃ r ∈ l, r.id = i := by
  rw [firstKeys, mem_firstKeysAux]
  simp

theorem nodup_firstKeys (l : List AdmRow) : (firstKeys l).Nodup :=
  nodup_firstKeysAux l []

/-! ### Association-list lemmas -/

theorem lookupAssoc_mem {β : Type} (l : List (String × β)) (k : String) (v : β)
    (h : lookupAssoc l k = some v) : (k, v) ∈ l := by
  induction l with
  | nil => exact absurd h (by simp [lookupAssoc])
  | cons kv t ih =>
    unfold lookupAssoc at h
    by_cases hk : kv.1 = k
    · rw [if_pos hk] at h
      have : v = kv.2 := (Option.some.inj h).symm
      rw [this, ← hk]
      exact List.mem_cons_self _ _
    · rw [if_neg hk] at h
      exact List.mem_cons_of_mem _ (ih h)

theorem lookupAssoc_updateAssoc_self {β : Type} (k : String) (v : β) (l : List (String × β)) :
    lookupAssoc (updateAssoc k v l) k = (lookupAssoc l k).map (fun _ => v) := by
  induction l with
  | nil => rfl
  | cons kv t ih =>
    unfold updateAssoc
    by_cases hk : kv.1 = k
    · rw [if_pos hk]
      unfold lookupAssoc
      rw [if_pos hk, if_pos hk]
      rfl
    · rw [if_neg hk]
      unfold lookupAssoc
      rw [if_neg hk, if_neg hk]
      exact ih

theorem lookupAssoc_updateAssoc_other {β : Type} (k k' : String) (hne : k' ≠ k) (v : β)
    (l : List (String × β)) :
    lookupAssoc (updateAssoc k v l) k' = lookupAssoc l k' := by
  induction l with
  | nil => rfl
  | cons kv t ih =>
    unfold updateAssoc
    by_cases hk : kv.1 = k
    · rw [if_pos hk]
      have hk' : ¬kv.1 = k' := fun hc => hne (by rw [← hc, hk])
      unfold lookupAssoc
      rw [if_neg hk', if_neg hk']
    · rw [if_neg hk]
      unfold lookupAssoc
      by_cases hk' : kv.1 = k'
      · rw [if_pos hk', if_pos hk']
      · rw [if_neg hk', if_neg hk']
        exact ih

theorem lookupAssoc_updateAssoc_isSome {β : Type} (k k' : String) (v : β)
    (l : List (String × β)) :
    (lookupAssoc (updateAssoc k v l) k').isSome = (lookupAssoc l k').isSome := by
  by_cases h : k' = k
  · subst h
    rw [lookupAssoc_updateAssoc_self]
    cases lookupAssoc l k' <;> rfl
  · rw [lookupAssoc_updateAssoc_other k k' h v l]

theorem lookupAssoc_map_eq {β : Type} (L : List String) (f : String → β) (k : String) (v : β)
    (h : lookupAssoc (L.map fun p => (p, f p)) k = some v) : v = f k ∧ k ∈ L := by
  induction L with
  | nil => exact absurd h (by simp [lookupAssoc])
  | cons x t ih =>
    rw [List.map_cons] at h
    unfold lookupAssoc at h
    by_cases hk : x = k
    · rw [if_pos hk] at h
      have hv : v = f x := (Option.some.inj h).symm
      rw [hv, hk]
      exact ⟨rfl, by rw [← hk]; exact List.mem_cons_self _ _⟩
    · rw [if_neg hk] at h
      obtain ⟨hv, hm⟩ := ih h
      exact ⟨hv, List.mem_cons_of_mem _ hm⟩

theorem lookupAssoc_map_isSome {β : Type} (L : List String) (f : String → β) (k : String)
    (hk : k ∈ L) : (lookupAssoc (L.map fun p => (p, f p)) k).isSome := by
  induction L with
  | nil => exact absurd hk (List.not_mem_nil k)
  | cons x t ih =>
    rw [List.map_cons]
    unfold lookupAssoc
    by_cases hx : x = k
    · rw [if_pos hx]; rfl
    · rw [if_neg hx]
      exact ih ((List.mem_cons.mp hk).resolve_left fun hc => hx hc.symm)

/-! ### Assigned-id lemmas -/

/-- All ids assigned anywhere in the `accepted` map, in program order. -/
def assignedIds (acc : List (String × List Int)) : List Int := (acc.map (·.2)).flatten

theorem mem_assignedIds_of_lookup (acc : List (String × List Int)) (p : String)
    (l : List Int) (a : Int) (hl : lookupAssoc acc p = some l) (ha : a ∈ l) :
    a ∈ assignedIds acc := by
  induction acc with
  | nil => exact absurd hl (by simp [lookupAssoc])
  | cons kv t ih =>
    unfold lookupAssoc at hl
    unfold assignedIds
    rw [List.map_cons, List.flatten_cons, List.mem_append]
    by_cases hk : kv.1 = p
    · rw [if_pos hk] at hl
      exact Or.inl (by rw [Option.some.inj hl]; exact ha)
    · rw [if_neg hk] at hl
      exact Or.inr (ih hl)

theorem assignedIds_updateAssoc_perm (acc : List (String × List Int)) (k : String)
    (l₀ : List Int) (aid : Int) (h : lookupAssoc acc k = some l₀) :
    (assignedIds (updateAssoc k (l₀ ++ [aid]) acc)).Perm (aid :: assignedIds acc) := by
  induction acc with
  | nil => exact absurd h (by simp [lookupAssoc])
  | cons kv t ih =>
    unfold lookupAssoc at h
    unfold updateAssoc
    by_cases hk : kv.1 = k
    · rw [if_pos hk] at h ⊢
      have hl : kv.2 = l₀ := Option.some.inj h
      unfold assignedIds
      rw [List.map_cons, List.flatten_cons, List.map_cons, List.flatten_cons, hl,
        List.append_assoc]
      exact List.perm_middle
    · rw [if_neg hk] at h ⊢
      unfold assignedIds
      rw [List.map_cons, List.flatten_cons, List.map_cons, List.flatten_cons]
      exact (List.Perm.append_left kv.2 (ih h)).trans List.perm_middle

theorem assigned_disjoint (acc : List (String × List Int))
    (hnd : (assignedIds acc).Nodup) (p₁ p₂ : String) (l₁ l₂ : List Int) (hne : p₁ ≠ p₂)
    (h₁ : lookupAssoc acc p₁ = some l₁) (h₂ : lookupAssoc acc p₂ = some l₂)
    (a : Int) (ha : a ∈ l₁) : a ∉ l₂ := by
  induction acc with
  | nil => exact absurd h₁ (by simp [lookupAssoc])
  | cons kv t ih =>
    have hnd' : kv.2.Nodup ∧ (assignedIds t).Nodup ∧ kv.2.Disjoint (assignedIds t) := by
      have : assignedIds (kv :: t) = kv.2 ++ assignedIds t := by
        unfold assignedIds; rw [List.map_cons, List.flatten_cons]
      rw [this] at hnd
      exact List.nodup_append.mp hnd
    unfold lookupAssoc at h₁ h₂
    by_cases hk1 : kv.1 = p₁
    · rw [if_pos hk1] at h₁
      have hk2 : ¬kv.1 = p₂ := fun hc => hne (by rw [← hk1, hc])
      rw [if_neg hk2] at h₂
      intro hc
      have ha' : a ∈ kv.2 := by rw [Option.some.inj h₁]; exact ha
      exact hnd'.2.2 ha' (mem_assignedIds_of_lookup t p₂ l₂ a h₂ hc)
    · rw [if_neg hk1] at h₁
      by_cases hk2 : kv.1 = p₂
      · rw [if_pos hk2] at h₂
        intro hc
        have hc' : a ∈ kv.2 := by rw [Option.some.inj h₂]; exact hc
        exact hnd'.2.2 hc' (mem_assignedIds_of_lookup t p₁ l₁ a h₁ ha)
      · rw [if_neg hk2] at h₂
        exact ih hnd'.2.1 h₁ h₂

theorem assigned_list_nodup (acc : List (String × List Int))
    (hnd : (assignedIds acc).Nodup) (p : String) (l : List Int)
    (h : lookupAssoc acc p = some l) : l.Nodup := by
  induction acc with
  | nil => exact absurd h (by simp [lookupAssoc])
  | cons kv t ih =>
    have hnd' : kv.2.Nodup ∧ (assignedIds t).Nodup ∧ kv.2.Disjoint (assignedIds t) := by
      have : assignedIds (kv :: t) = kv.2 ++ assignedIds t := by
        unfold assignedIds; rw [List.map_cons, List.flatten_cons]
      rw [this] at hnd
      exact List.nodup_append.mp hnd
    unfold lookupAssoc at h
    by_cases hk : kv.1 = p
    · rw [if_pos hk] at h
      rw [← Option.some.inj h]
      exact hnd'.1
    · rw [if_neg hk] at h
      exact ih hnd'.2.1 h

/-! ### Greedy-pass lemmas -/

theorem scanPrefs_cons (aid : Int) (prog : String) (rest : List String)
    (acc : List (String × List Int)) :
    scanPrefs aid (prog :: rest) acc =
      match lookupAssoc acc prog with
      | none => none
      | some lst =>
        match lookupAssoc SEATS prog with
        | none => none
        | some cap =>
          if lst.length < cap then some (updateAssoc prog (lst ++ [aid]) acc)
          else scanPrefs aid rest acc := rfl

/-- The inner scan either leaves the accepted map unchanged (applicant
    unassigned) or appends the applicant to exactly one listed program whose
    seat count is below capacity. -/
theorem scanPrefs_cases (aid : Int) (prefs : List String) (acc acc' : List (String × List Int))
    (h : scanPrefs aid prefs acc = some acc') :
    acc' = acc ∨ ∃ p l cap, p ∈ prefs ∧ lookupAssoc acc p = some l ∧
      lookupAssoc SEATS p = some cap ∧ l.length < cap ∧
      acc' = updateAssoc p (l ++ [aid]) acc := by
  induction prefs with
  | nil => exact Or.inl (Option.some.inj h).symm
  | cons prog rest ih =>
    rw [scanPrefs_cons] at h
    cases hl : lookupAssoc acc prog with
    | none => rw [hl] at h; exact Option.noConfusion h
    | some lst =>
      rw [hl] at h
      dsimp only at h
      cases hc : lookupAssoc SEATS prog with
      | none => rw [hc] at h; exact Option.noConfusion h
      | some cap =>
        rw [hc] at h
        dsimp only at h
        by_cases hlen : lst.length < cap
        · rw [if_pos hlen] at h
          exact Or.inr ⟨prog, lst, cap, List.mem_cons_self _ _, hl, hc,
            hlen, (Option.some.inj h).symm⟩
        · rw [if_neg hlen] at h
          rcases ih h with h' | ⟨p, l, cp, hm, h1, h2, h3, h4⟩
          · exact Or.inl h'
          · exact Or.inr ⟨p, l, cp, List.mem_cons_of_mem _ hm, h1, h2, h3, h4⟩

theorem processAll_nil (fl : List AdmRow) (acc : List (String × List Int)) :
    processAll fl [] acc = some acc := rfl

theorem processAll_cons (fl : List AdmRow) (aid : Int) (rest : List Int)
    (acc : List (String × List Int)) :
    processAll fl (aid :: rest) acc =
      match scanPrefs aid (prefsOf fl aid) acc with
      | none => none
      | some acc' => processAll fl rest acc' := rfl

/-- Every id assigned by the pass was assigned before the pass or occurs in
    the processing order. -/
theorem processAll_mem (fl : List AdmRow) (order : List Int)
    (acc acc₁ : List (String × List Int)) (h : processAll fl order acc = some acc₁) :
    ∀ a, a ∈ assignedIds acc₁ → a ∈ assignedIds acc ∨ a ∈ order := by
  induction order generalizing acc with
  | nil =>
    rw [processAll_nil] at h
    intro a ha
    exact Or.inl (by rw [Option.some.inj h]; exact ha)
  | cons aid rest ih =>
    rw [processAll_cons] at h
    cases hs : scanPrefs aid (prefsOf fl aid) acc with
    | none => rw [hs] at h; exact Option.noConfusion h
    | some acc' =>
      rw [hs] at h
      intro a ha
      rcases ih acc' h a ha with ha' | ha'
      · rcases scanPrefs_cases aid (prefsOf fl aid) acc acc' hs with heq | ⟨p, l, cp, -, h1, -, -, h4⟩
        · rw [heq] at ha'; exact Or.inl ha'
        · rw [h4] at ha'
          have hperm := assignedIds_updateAssoc_perm acc p l aid h1
          rcases List.mem_cons.mp (hperm.mem_iff.mp ha') with rfl | hm
          · exact Or.inr (List.mem_cons_self _ _)
          · exact Or.inl hm
      · exact Or.inr (List.mem_cons_of_mem _ ha')

/-- The pass preserves the no-duplicate-assignment invariant when the order
    has no duplicates and no ordered id is already assigned. -/
theorem processAll_nodup (fl : List AdmRow) (order : List Int)
    (acc acc₁ : List (String × List Int))
    (hnd : order.Nodup) (hfresh : ∀ b ∈ order, b ∉ assignedIds acc)
    (hacc : (assignedIds acc).Nodup) (h : processAll fl order acc = some acc₁) :
    (assignedIds acc₁).Nodup := by
  induction order generalizing acc with
  | nil =>
    rw [processAll_nil] at h
    rw [← Option.some.inj h]
    exact hacc
  | cons aid rest ih =>
    rw [processAll_cons] at h
    cases hs : scanPrefs aid (prefsOf fl aid) acc with
    | none => rw [hs] at h; exact Option.noConfusion h
    | some acc' =>
      rw [hs] at h
      rcases scanPrefs_cases aid (prefsOf fl aid) acc acc' hs with heq | ⟨p, l, cp, -, h1, -, -, h4⟩
      · refine ih acc' ((List.nodup_cons.mp hnd).2) ?_ ?_ h
        · intro b hb
          rw [heq]
          exact hfresh b (List.mem_cons_of_mem _ hb)
        · rw [heq]; exact hacc
      · have hperm := assignedIds_updateAssoc_perm acc p l aid h1
        refine ih acc' ((List.nodup_cons.mp hnd).2) ?_ ?_ h
        · intro b hb hmem
          rcases List.mem_cons.mp ((h4 ▸ hperm).mem_iff.mp hmem) with rfl | hm
          · exact (List.nodup_cons.mp hnd).1 hb
          · exact hfresh b (List.mem_cons_of_mem _ hb) hm
        · refine ((h4 ▸ hperm).symm.nodup) (List.nodup_cons.mpr ?_)
          exact ⟨hfresh aid (List.mem_cons_self _ _), hacc⟩

/-- Every accepted list stays sorted by non-increasing score when the order is
    processed by non-increasing score and dominates everything assigned. -/
theorem processAll_sorted (fl : List AdmRow) (order : List Int)
    (acc acc₁ : List (String × List Int))
    (hord : order.Pairwise (fun i j => scoreOf fl j ≤ scoreOf fl i))
    (hsort : ∀ p l, lookupAssoc acc p = some l →
      l.Pairwise (fun a b => scoreOf fl b ≤ scoreOf fl a))
    (hdom : ∀ x, x ∈ assignedIds acc → ∀ b ∈ order, scoreOf fl b ≤ scoreOf fl x)
    (h : processAll fl order acc = some acc₁) :
    ∀ p l, lookupAssoc acc₁ p = some l →
      l.Pairwise (fun a b => scoreOf fl b ≤ scoreOf fl a) := by
  induction order generalizing acc with
  | nil =>
    rw [processAll_nil] at h
    rw [← Option.some.inj h]
    exact hsort
  | cons aid rest ih =>
    rw [processAll_cons] at h
    cases hs : scanPrefs aid (prefsOf fl aid) acc with
    | none => rw [hs] at h; exact Option.noConfusion h
    | some acc' =>
      rw [hs] at h
      rcases scanPrefs_cases aid (prefsOf fl aid) acc acc' hs with heq | ⟨p₀, l₀, cp, -, h1, -, -, h4⟩
      · rw [heq] at h
        refine ih acc (List.pairwise_cons.mp hord).2 hsort ?_ h
        intro x hx b hb
        exact hdom x hx b (List.mem_cons_of_mem _ hb)
      · rw [h4] at h
        refine ih _ (List.pairwise_cons.mp hord).2 ?_ ?_ h
        · intro p l hl
          by_cases hp : p = p₀
          · subst hp
            rw [lookupAssoc_updateAssoc_self, h1] at hl
            have hll : l = l₀ ++ [aid] := (Option.some.inj hl).symm
            subst hll
            rw [List.pairwise_append]
            refine ⟨hsort p l₀ h1, List.pairwise_singleton _ _, ?_⟩
            intro x hx b hb
            rw [List.mem_singleton.mp hb]
            exact hdom x (mem_assignedIds_of_lookup acc p l₀ x h1 hx) aid
              (List.mem_cons_self _ _)
          · rw [lookupAssoc_updateAssoc_other p₀ p hp] at hl
            exact hsort p l hl
        · intro x hx b hb
          have hperm := assignedIds_updateAssoc_perm acc p₀ l₀ aid h1
          rcases List.mem_cons.mp (hperm.mem_iff.mp hx) with rfl | hm
          · exact (List.pairwise_cons.mp hord).1 b hb
          · exact hdom x hm b (List.mem_cons_of_mem _ hb)

theorem SEATS_isSome : ∀ p ∈ PROGRAMS, (lookupAssoc SEATS p).isSome := by decide

theorem SEATS_pos (p : String) (cap : Nat) (h : lookupAssoc SEATS p = some cap) : 0 < cap := by
  have hmem := lookupAssoc_mem SEATS p cap h
  have hd : (p, cap) = ("PM", 40) ∨ (p, cap) = ("IVT", 50) ∨ (p, cap) = ("ITSS", 30) ∨
      (p, cap) = ("IB", 20) := by
    simpa [SEATS] using hmem
  rcases hd with h1 | h1 | h1 | h1 <;>
    · obtain ⟨-, h2⟩ := Prod.mk.injEq .. ▸ h1
      omega

theorem scanPrefs_isSome (aid : Int) (prefs : List String)
    (acc : List (String × List Int)) (hp : ∀ prog ∈ prefs, prog ∈ PROGRAMS)
    (hkeys : ∀ p ∈ PROGRAMS, (lookupAssoc acc p).isSome) :
    (scanPrefs aid prefs acc).isSome := by
  induction prefs with
  | nil => rfl
  | cons prog rest ih =>
    rw [scanPrefs_cons]
    have hmem := hp prog (List.mem_cons_self _ _)
    cases hl : lookupAssoc acc prog with
    | none =>
      exact absurd (hkeys prog hmem) (by rw [hl]; exact fun hc => Bool.noConfusion hc)
    | some lst =>
      dsimp only
      cases hc : lookupAssoc SEATS prog with
      | none =>
        exact absurd (SEATS_isSome prog hmem) (by rw [hc]; exact fun hc => Bool.noConfusion hc)
      | some cap =>
        dsimp only
        by_cases hlen : lst.length < cap
        · rw [if_pos hlen]; rfl
        · rw [if_neg hlen]
          exact ih (fun q hq => hp q (List.mem_cons_of_mem _ hq))

theorem scanPrefs_keysOk (aid : Int) (prefs : List String)
    (acc acc' : List (String × List Int)) (h : scanPrefs aid prefs acc = some acc')
    (hkeys : ∀ p ∈ PROGRAMS, (lookupAssoc acc p).isSome) :
    ∀ p ∈ PROGRAMS, (lookupAssoc acc' p).isSome := by
  rcases scanPrefs_cases aid prefs acc acc' h with heq | ⟨p₀, l₀, cp, -, -, -, -, h4⟩
  · rw [heq]; exact hkeys
  · intro p hp
    rw [h4, lookupAssoc_updateAssoc_isSome]
    exact hkeys p hp

theorem processAll_isSome (fl : List AdmRow) (order : List Int)
    (acc : List (String × List Int))
    (hp : ∀ aid ∈ order, ∀ prog ∈ prefsOf fl aid, prog ∈ PROGRAMS)
    (hkeys : ∀ p ∈ PROGRAMS, (lookupAssoc acc p).isSome) :
    (processAll fl order acc).isSome := by
  induction order generalizing acc with
  | nil => rfl
  | cons aid rest ih =>
    rw [processAll_cons]
    have hs := scanPrefs_isSome aid (prefsOf fl aid) acc
      (hp aid (List.mem_cons_self _ _)) hkeys
    cases hsc : scanPrefs aid (prefsOf fl aid) acc with
    | none => exact absurd hs (by rw [hsc]; exact fun hc => Bool.noConfusion hc)
    | some acc' =>
      exact ih acc' (fun b hb => hp b (List.mem_cons_of_mem _ hb))
        (scanPrefs_keysOk aid (prefsOf fl aid) acc acc' hsc hkeys)

/-- In a list sorted by non-increasing score, the last element has the
    minimum score. -/
theorem getLast_min_of_pairwise (f : Int → Int) (l : List Int) (a : Int)
    (hp : l.Pairwise (fun x y => f y ≤ f x)) (hl : l.getLast? = some a) :
    ∀ b ∈ l, f a ≤ f b := by
  induction l with
  | nil => exact absurd hl (by simp)
  | cons x t ih =>
    cases t with
    | nil =>
      intro b hb
      rcases List.mem_cons.mp hb with rfl | hb
      · have : a = b := Option.some.inj (by
          rw [← hl]; rfl)
        rw [this]
      · exact absurd hb (List.not_mem_nil _)
    | cons y tt =>
      rw [List.getLast?_cons_cons] at hl
      intro b hb
      rcases List.mem_cons.mp hb with rfl | hb
      · have ha : a ∈ y :: tt := List.mem_of_mem_getLast? hl
        exact (List.pairwise_cons.mp hp).1 a ha
      · exact ih (List.pairwise_cons.mp hp).2 hl b hb

/-! ### compute_admission bridge lemmas -/

theorem mem_consenting (rows : List AdmRow) (r : AdmRow) :
    r ∈ consenting rows ↔ r ∈ rows ∧ r.consent = 1 := by
  rw [consenting, List.mem_filter]
  simp

/-- Both branches of `compute_admission` produce the greedy pass's result and
    the per-program cutoff map. -/
theorem compute_admission_some (rows : List AdmRow) (acc : List (String × List Int))
    (cut : List (String × Option Int)) (h : compute_admission rows = some (acc, cut)) :
    processAll (consenting rows)
        (sortByLe (admissionOrderLe (consenting rows)) (firstKeys (consenting rows)))
        initAccepted = some acc ∧
      cut = PROGRAMS.map (fun p => (p, cutoffOf (consenting rows) acc p)) := by
  unfold compute_admission at h
  by_cases hemp : rows.isEmpty
  · rw [if_pos hemp] at h
    have hrows : rows = [] := List.isEmpty_iff.mp hemp
    subst hrows
    have hp := Option.some.inj h
    rw [Prod.mk.injEq] at hp
    obtain ⟨h1, h2⟩ := hp
    rw [← h1, ← h2]
    exact ⟨by decide, by decide⟩
  · rw [if_neg hemp] at h
    dsimp only at h
    cases hpa : processAll (consenting rows)
        (sortByLe (admissionOrderLe (consenting rows)) (firstKeys (consenting rows)))
        initAccepted with
    | none => rw [hpa] at h; exact Option.noConfusion h
    | some accepted =>
      rw [hpa] at h
      dsimp only at h
      have hp := Option.some.inj h
      rw [Prod.mk.injEq] at hp
      obtain ⟨h1, h2⟩ := hp
      subst h1
      exact ⟨rfl, h2.symm⟩

theorem mem_prefsOf (fl : List AdmRow) (aid : Int) (prog : String)
    (h : prog ∈ prefsOf fl aid) : ∃ r ∈ fl, r.id = aid ∧ r.program = prog := by
  rw [prefsOf, List.mem_map] at h
  obtain ⟨pair, hpair, hp2⟩ := h
  rw [mem_sortByLe, List.mem_map] at hpair
  obtain ⟨r, hr, hrp⟩ := hpair
  rw [List.mem_filter] at hr
  refine ⟨r, hr.1, by simpa using hr.2, ?_⟩
  rw [← hp2, ← hrp]

theorem admissionOrderLe_total (fl : List AdmRow) (i j : Int) :
    admissionOrderLe fl i j = true ∨ admissionOrderLe fl j i = true := by
  unfold admissionOrderLe
  simp only [decide_eq_true_eq]
  omega

theorem admissionOrderLe_trans (fl : List AdmRow) (i j k : Int)
    (h1 : admissionOrderLe fl i j = true) (h2 : admissionOrderLe fl j k = true) :
    admissionOrderLe fl i k = true := by
  unfold admissionOrderLe at h1 h2 ⊢
  simp only [decide_eq_true_eq] at h1 h2 ⊢
  omega

theorem admissionOrderLe_score (fl : List AdmRow) (i j : Int)
    (h : admissionOrderLe fl i j = true) : scoreOf fl j ≤ scoreOf fl i := by
  unfold admissionOrderLe at h
  simp only [decide_eq_true_eq] at h
  omega

theorem initAccepted_keysOk : ∀ p ∈ PROGRAMS, (lookupAssoc initAccepted p).isSome := by
  decide

theorem assignedIds_initAccepted : assignedIds initAccepted = [] := by decide

theorem lookupAssoc_initAccepted (p : String) (l : List Int)
    (h : lookupAssoc initAccepted p = some l) : l = [] ∧ p ∈ PROGRAMS :=
  lookupAssoc_map_eq PROGRAMS (fun _ => []) p l h

/-- The processing order used by `compute_admission` on nonempty input. -/
theorem order_facts (rows : List AdmRow) :
    (∀ i, i ∈ sortByLe (admissionOrderLe (consenting rows)) (firstKeys (consenting rows)) ↔
      ∃ r ∈ rows, r.id = i ∧ r.consent = 1) ∧
    (sortByLe (admissionOrderLe (consenting rows)) (firstKeys (consenting rows))).Nodup ∧
    (sortByLe (admissionOrderLe (consenting rows)) (firstKeys (consenting rows))).Pairwise
      (fun i j => admissionOrderLe (consenting rows) i j = true) := by
  refine ⟨?_, ?_, ?_⟩
  · intro i
    rw [mem_sortByLe, mem_firstKeys]
    constructor
    · rintro ⟨r, hr, hi⟩
      rw [mem_consenting] at hr
      exact ⟨r, hr.1, hi, hr.2⟩
    · rintro ⟨r, hr, hi, hc⟩
      exact ⟨r, (mem_consenting rows r).mpr ⟨hr, hc⟩, hi⟩
  · exact (sortByLe_perm _ _).symm.nodup (nodup_firstKeys _)
  · exact pairwise_sortByLe _ (admissionOrderLe_total _) (admissionOrderLe_trans _) _

/-! ### Allocation claims -/

/-- C1: for every set of consenting applications, the engine processes
    applicants in descending-total-score order with ties broken by ascending
    id; each applicant in that order is assigned to the first program of their
    ascending-priority preference list with a free seat, is unassigned if none
    exists, and is assigned to at most one program in total (no id occurs in
    two programs' lists, or twice in one). -/
theorem C1_allocation_greedy_order (rows : List AdmRow) (acc : List (String × List Int))
    (cut : List (String × Option Int)) (h : compute_admission rows = some (acc, cut)) :
    ∃ order : List Int,
      (∀ i, i ∈ order ↔ ∃ r ∈ rows, r.id = i ∧ r.consent = 1) ∧
      order.Nodup ∧
      order.Pairwise (fun i j =>
        scoreOf (consenting rows) j < scoreOf (consenting rows) i ∨
        (scoreOf (consenting rows) i = scoreOf (consenting rows) j ∧ i < j)) ∧
      processAll (consenting rows) order initAccepted = some acc ∧
      (∀ p₁ p₂ l₁ l₂, p₁ ≠ p₂ → lookupAssoc acc p₁ = some l₁ →
        lookupAssoc acc p₂ = some l₂ → ∀ a ∈ l₁, a ∉ l₂) ∧
      (∀ p l, lookupAssoc acc p = some l → l.Nodup) := by
  obtain ⟨hpa, -⟩ := compute_admission_some rows acc cut h
  obtain ⟨hmem, hnd, hpair⟩ := order_facts rows
  have hassigned : (assignedIds acc).Nodup :=
    processAll_nodup (consenting rows) _ initAccepted acc hnd
      (fun b _ => by rw [assignedIds_initAccepted]; exact List.not_mem_nil b)
      (by rw [assignedIds_initAccepted]; exact List.nodup_nil) hpa
  refine ⟨sortByLe (admissionOrderLe (consenting rows)) (firstKeys (consenting rows)),
    hmem, hnd, ?_, hpa, ?_, ?_⟩
  · refine (hpair.and hnd).imp ?_
    rintro a b ⟨hle, hne⟩
    unfold admissionOrderLe at hle
    simp only [decide_eq_true_eq] at hle
    rcases hle with h' | ⟨he, hl⟩
    · exact Or.inl h'
    · exact Or.inr ⟨he, lt_of_le_of_ne hl hne⟩
  · intro p₁ p₂ l₁ l₂ hne h1 h2 a ha
    exact assigned_disjoint acc hassigned p₁ p₂ l₁ l₂ hne h1 h2 a ha
  · intro p l hl
    exact assigned_list_nodup acc hassigned p l hl

def admRows1 : List AdmRow := [⟨1, "PM", 1, 1, 100⟩]

def acc1 : List (String × List Int) := [("PM", [1]), ("IVT", []), ("ITSS", []), ("IB", [])]

def cut1 : List (String × Option Int) :=
  [("PM", none), ("IVT", none), ("ITSS", none), ("IB", none)]

theorem C1_allocation_greedy_order_witness :
    ∃ order : List Int,
      (∀ i, i ∈ order ↔ ∃ r ∈ admRows1, r.id = i ∧ r.consent = 1) ∧
      order.Nodup ∧
      order.Pairwise (fun i j =>
        scoreOf (consenting admRows1) j < scoreOf (consenting admRows1) i ∨
        (scoreOf (consenting admRows1) i = scoreOf (consenting admRows1) j ∧ i < j)) ∧
      processAll (consenting admRows1) order initAccepted = some acc1 ∧
      (∀ p₁ p₂ l₁ l₂, p₁ ≠ p₂ → lookupAssoc acc1 p₁ = some l₁ →
        lookupAssoc acc1 p₂ = some l₂ → ∀ a ∈ l₁, a ∉ l₂) ∧
      (∀ p l, lookupAssoc acc1 p = some l → l.Nodup) :=
  C1_allocation_greedy_order admRows1 acc1 cut1 (by decide)

/-- C3: for every program in the output, a program assigned exactly to
    capacity has its cutoff equal to the score of its last-assigned applicant,
    which is the minimum score among its assigned applicants; a program
    assigned strictly below capacity has no cutoff (undersubscribed). -/
theorem C3_cutoff_consistency (rows : List AdmRow) (acc : List (String × List Int))
    (cut : List (String × Option Int)) (p : String) (lst : List Int) (cap : Nat)
    (cval : Option Int)
    (h : compute_admission rows = some (acc, cut))
    (hacc : lookupAssoc acc p = some lst)
    (hseats : lookupAssoc SEATS p = some cap)
    (hcut : lookupAssoc cut p = some cval) :
    (lst.length = cap → ∃ a, lst.getLast? = some a ∧
      cval = some (scoreOf (consenting rows) a) ∧
      ∀ b ∈ lst, scoreOf (consenting rows) a ≤ scoreOf (consenting rows) b) ∧
    (lst.length < cap → cval = none) := by
  obtain ⟨hpa, hcutmap⟩ := compute_admission_some rows acc cut h
  have hcv : cval = cutoffOf (consenting rows) acc p := by
    rw [hcutmap] at hcut
    exact (lookupAssoc_map_eq PROGRAMS _ p cval hcut).1
  have hcval : cutoffOf (consenting rows) acc p =
      if lst.length < cap then none else lst.getLast?.map (scoreOf (consenting rows)) := by
    simp only [cutoffOf, hacc, hseats, Option.getD_some]
  constructor
  · intro hlen
    have hpos : 0 < cap := SEATS_pos p cap hseats
    have hlst : lst ≠ [] := by
      intro hnil
      rw [hnil] at hlen
      simp at hlen
      omega
    obtain ⟨a, ha⟩ : ∃ a, lst.getLast? = some a := by
      cases hg : lst.getLast? with
      | none => exact absurd (List.getLast?_eq_none_iff.mp hg) hlst
      | some a => exact ⟨a, rfl⟩
    obtain ⟨-, -, hpair⟩ := order_facts rows
    have hsorted := processAll_sorted (consenting rows) _ initAccepted acc
      (hpair.imp fun hle => admissionOrderLe_score _ _ _ hle)
      (fun q l hl => by rw [(lookupAssoc_initAccepted q l hl).1]; exact List.Pairwise.nil)
      (fun x hx => by rw [assignedIds_initAccepted] at hx; exact absurd hx (List.not_mem_nil x))
      hpa p lst hacc
    refine ⟨a, ha, ?_, getLast_min_of_pairwise _ lst a hsorted ha⟩
    rw [hcv, hcval, if_neg (by omega), ha]
    rfl
  · intro hlen
    rw [hcv, hcval, if_pos hlen]

theorem C3_cutoff_consistency_witness :
    (([(1 : Int)] : List Int).length = 40 → ∃ a, ([(1 : Int)] : List Int).getLast? = some a ∧
      (none : Option Int) = some (scoreOf (consenting admRows1) a) ∧
      ∀ b ∈ ([(1 : Int)] : List Int),
        scoreOf (consenting admRows1) a ≤ scoreOf (consenting admRows1) b) ∧
    (([(1 : Int)] : List Int).length < 40 → (none : Option Int) = none) :=
  C3_cutoff_consistency admRows1 acc1 cut1 "PM" [1] 40 none
    (by decide) (by decide) (by decide) (by decide)

/-- C6 counterexample: the result for a day with no stored applications is the
    empty allocation, and it is NOT distinguishable from the result for a day
    that does have stored applications, all non-consenting, with every program
    merely undersubscribed — both days yield exactly the same output value. -/
def dbUndersub : DB :=
  ⟨[⟨7, 10, 10, 10, 5, 35⟩], [], [⟨"2024-08-01", "PM", 7, 0, 1, "t"⟩]⟩

theorem C6_counterexample :
    compute_admission_from_db dbUndersub "2024-08-01" =
      compute_admission_from_db emptyDB "2024-08-01" ∧
    admRowsForDay emptyDB "2024-08-01" = [] ∧
    admRowsForDay dbUndersub "2024-08-01" ≠ [] ∧
    compute_admission_from_db emptyDB "2024-08-01" =
      some (PROGRAMS.map (fun p => (p, [])), PROGRAMS.map (fun p => (p, none))) :=
  ⟨by decide, by decide, by decide, by decide⟩

/-- C6 (amended): for a day with no stored applications the engine returns the
    explicit empty allocation (every program mapped to an empty list and an
    absent cutoff), but this value is identical to the result for any day
    whose stored applications all have consent false — a day on which every
    program is merely undersubscribed — so the two cases are not
    distinguishable from the allocation output. -/
theorem C6_amended_empty_result (rows : List AdmRow) (h : ∀ r ∈ rows, r.consent = 0) :
    compute_admission rows =
      some (PROGRAMS.map (fun p => (p, [])), PROGRAMS.map (fun p => (p, none))) := by
  unfold compute_admission
  by_cases hemp : rows.isEmpty
  · rw [if_pos hemp]
  · rw [if_neg hemp]
    have hfl : consenting rows = [] := by
      rw [consenting, List.filter_eq_nil_iff]
      intro r hr
      simp [h r hr]
    dsimp only
    rw [hfl]
    decide

theorem C6_amended_empty_result_witness :
    compute_admission [⟨7, "PM", 1, 0, 50⟩] =
      some (PROGRAMS.map (fun p => (p, [])), PROGRAMS.map (fun p => (p, none))) :=
  C6_amended_empty_result [⟨7, "PM", 1, 0, 50⟩] (by decide)

/-- C8: an applicant whose every application has consent false appears in no
    program's assignment list — non-consenting applications are excluded
    before allocation. -/
theorem C8_consent_exclusion (rows : List AdmRow) (a : Int)
    (hcons : ∀ r ∈ rows, r.id = a → r.consent = 0)
    (acc : List (String × List Int)) (cut : List (String × Option Int))
    (h : compute_admission rows = some (acc, cut))
    (p : String) (l : List Int) (hl : lookupAssoc acc p = some l) : a ∉ l := by
  obtain ⟨hpa, -⟩ := compute_admission_some rows acc cut h
  intro hc
  have hmem : a ∈ assignedIds acc := mem_assignedIds_of_lookup acc p l a hl hc
  rcases processAll_mem (consenting rows) _ initAccepted acc hpa a hmem with h0 | h0
  · rw [assignedIds_initAccepted] at h0
    exact List.not_mem_nil a h0
  · obtain ⟨hmemiff, -, -⟩ := order_facts rows
    obtain ⟨r, hr, hri, hrc⟩ := (hmemiff a).mp h0
    have := hcons r hr hri
    omega

theorem C8_consent_exclusion_witness : (7 : Int) ∉ ([] : List Int) :=
  C8_consent_exclusion [⟨7, "PM", 1, 0, 50⟩] 7 (by decide)
    (PROGRAMS.map (fun p => (p, []))) (PROGRAMS.map (fun p => (p, none)))
    (by decide) "PM" [] (by decide)

/-- C10: the allocation engine is total exactly under the precondition that
    every consenting row's program is one of the configured programs
    {PM, IVT, ITSS, IB}: with that precondition it always returns a result,
    and there is a concrete input with a consenting application to an unknown
    program on which the program lookup fails (KeyError, modelled as `none`)
    instead of returning a result. -/
theorem C10_totality_iff_known_programs :
    (∀ rows : List AdmRow, (∀ r ∈ rows, r.consent = 1 → r.program ∈ PROGRAMS) →
      (compute_admission rows).isSome) ∧
    compute_admission [⟨1, "XX", 1, 1, 100⟩] = none := by
  constructor
  · intro rows hvalid
    unfold compute_admission
    by_cases hemp : rows.isEmpty
    · rw [if_pos hemp]; rfl
    · rw [if_neg hemp]
      dsimp only
      have hps := processAll_isSome (consenting rows)
        (sortByLe (admissionOrderLe (consenting rows)) (firstKeys (consenting rows)))
        initAccepted ?_ initAccepted_keysOk
      · cases hpa : processAll (consenting rows)
            (sortByLe (admissionOrderLe (consenting rows)) (firstKeys (consenting rows)))
            initAccepted with
        | none => exact absurd hps (by rw [hpa]; exact fun hc => Bool.noConfusion hc)
        | some accepted => rfl
      · intro aid _ prog hprog
        obtain ⟨r, hr, -, hprogeq⟩ := mem_prefsOf (consenting rows) aid prog hprog
        rw [mem_consenting] at hr
        rw [← hprogeq]
        exact hvalid r hr.1 hr.2
  · decide

theorem C10_totality_iff_known_programs_witness :
    (compute_admission admRows1).isSome ∧ compute_admission [⟨1, "XX", 1, 1, 100⟩] = none :=
  ⟨C10_totality_iff_known_programs.1 admRows1 (by decide),
   C10_totality_iff_known_programs.2⟩
